import Mathlib

/- Shallow embedding of the stroke-overlay core of src/src/index.ts
   (jupyter-annotation-tool-ipynbd): the stroke data model, the geometry
   primitives, the eraser engine, the renderer scaling and anchor
   correction, and the metadata synchronizer.  Pixel and normalized
   coordinates are modelled as rationals, JS arrays as lists, and absent
   or nullable fields as Option. -/

namespace Overlay

/-- A coordinate pair, the TS tuple type used for normalized points. -/
abbrev Pt := ℚ × ℚ

/-- type ToolMode = 'pen' | 'highlighter' (index.ts line 5). -/
inductive ToolMode where
  | pen
  | highlighter
deriving DecidableEq

/-- type StrokeBasis (index.ts lines 6-13). -/
structure StrokeBasis where
  width : ℚ
  height : ℚ
  minY : ℚ
  maxY : ℚ
  anchorLine : Option ℕ
  anchorLineTop : Option ℚ
deriving DecidableEq

/-- type Stroke (index.ts lines 14-21). -/
structure Stroke where
  tool : ToolMode
  width : ℚ
  color : String
  alpha : Option ℚ
  points : List Pt
  basis : Option StrokeBasis
deriving DecidableEq

/-- type OverlayMeta = strokes plus unknown extra keys (index.ts line 256);
only the strokes field is ever read or rebuilt by the core. -/
structure OverlayMeta where
  strokes : List Stroke
deriving DecidableEq

/-- const META_KEY (index.ts line 36). -/
def META_KEY : String := "overlay_v1"

/-- const BASE_ERASER_RADIUS = 0.015 (index.ts line 37). -/
def BASE_ERASER_RADIUS : ℚ := 15 / 1000

/-- distanceSquared (index.ts lines 640-644). -/
def distanceSquared (a b : Pt) : ℚ :=
  let dx := a.1 - b.1
  let dy := a.2 - b.2
  dx * dx + dy * dy

/-- pointToSegmentDistanceSquared (index.ts lines 646-663). -/
def pointToSegmentDistanceSquared (p a b : Pt) : ℚ :=
  if a.1 = b.1 ∧ a.2 = b.2 then
    distanceSquared p a
  else
    let vx := b.1 - a.1
    let vy := b.2 - a.2
    let wx := p.1 - a.1
    let wy := p.2 - a.2
    let d1 := vx * wx + vy * wy
    let d2 := vx * vx + vy * vy
    let t := max 0 (min 1 (d1 / d2))
    let proj : Pt := (a.1 + t * vx, a.2 + t * vy)
    distanceSquared p proj

/-- segmentDistanceSquared (index.ts lines 665-677): Math.min of the four
endpoint-to-segment squared distances, folded left as the variadic JS
Math.min does. -/
def segmentDistanceSquared (a1 a2 b1 b2 : Pt) : ℚ :=
  min (min (min (pointToSegmentDistanceSquared a1 b1 b2)
                (pointToSegmentDistanceSquared a2 b1 b2))
           (pointToSegmentDistanceSquared b1 a1 a2))
      (pointToSegmentDistanceSquared b2 a1 a2)

/-- radiusForStroke (index.ts lines 689-692).  The source reads
stroke.width ?? 0.003; the Stroke record always carries a width, so the
nullish fallback never fires in the embedding. -/
def radiusForStroke (stroke : Stroke) : ℚ :=
  max BASE_ERASER_RADIUS (stroke.width * 6)

/-- keepPoint (index.ts lines 704-717).  The pointer segment
[previous, point] exists exactly when a previous contact point was
supplied. -/
def keepPoint (point : Pt) (previous : Option Pt) (radiusSq : ℚ) (pt : Pt) : Bool :=
  if distanceSquared pt point ≤ radiusSq then false
  else
    match previous with
    | some prev =>
      if distanceSquared pt prev ≤ radiusSq then false
      else if pointToSegmentDistanceSquared pt prev point ≤ radiusSq then false
      else true
    | none => true

/-- The crosses test of index.ts lines 740-742: when a previous contact
point exists, whether the stroke segment [a, b] comes within the eraser
radius of the swept pointer segment [previous, point]. -/
def crossesSegment (point : Pt) (previous : Option Pt) (radiusSq : ℚ) (a b : Pt) : Bool :=
  match previous with
  | some prev => decide (segmentDistanceSquared a b prev point ≤ radiusSq)
  | none => false

/-- newSegments.push(currentSegment) guarded by currentSegment.length > 1
(index.ts lines 726-728, 744-746, 755-757). -/
def pushRun (segs : List (List Pt)) (run : List Pt) : List (List Pt) :=
  if 1 < run.length then segs ++ [run] else segs

/-- The mutable state of the per-stroke splitting loop
(index.ts lines 719-721). -/
structure EraseAcc where
  newSegments : List (List Pt)
  currentSegment : List Pt
  strokeModified : Bool
deriving DecidableEq

/-- One iteration of the pts.forEach splitting loop
(index.ts lines 723-753). -/
def eraseStep (point : Pt) (previous : Option Pt) (radiusSq : ℚ)
    (acc : EraseAcc) (pt : Pt) : EraseAcc :=
  if keepPoint point previous radiusSq pt = false then
    { newSegments := pushRun acc.newSegments acc.currentSegment
      currentSegment := []
      strokeModified := true }
  else if h : acc.currentSegment = [] then
    { acc with currentSegment := [pt] }
  else
    if crossesSegment point previous radiusSq (acc.currentSegment.getLast h) pt then
      { newSegments := pushRun acc.newSegments acc.currentSegment
        currentSegment := [pt]
        strokeModified := true }
    else
      { acc with currentSegment := acc.currentSegment ++ [pt] }

/-- The whole pts.forEach loop (index.ts lines 723-753). -/
def eraseFold (point : Pt) (previous : Option Pt) (radiusSq : ℚ)
    (pts : List Pt) : EraseAcc :=
  pts.foldl (eraseStep point previous radiusSq) ⟨[], [], false⟩

/-- Final flush of the still-open run (index.ts lines 755-757). -/
def extractRuns (acc : EraseAcc) : List (List Pt) :=
  pushRun acc.newSegments acc.currentSegment

/-- The list of surviving runs a single stroke is split into:
the forEach loop followed by the final flush. -/
def eraseSegments (point : Pt) (previous : Option Pt) (radiusSq : ℚ)
    (pts : List Pt) : List (List Pt) :=
  extractRuns (eraseFold point previous radiusSq pts)

/-- Math.min over the y coordinates of a run (index.ts line 777);
only ever applied to nonempty runs. -/
def minYOf : List Pt → ℚ
  | [] => 0
  | p :: ps => ps.foldl (fun m q => min m q.2) p.2

/-- Math.max over the y coordinates of a run (index.ts line 778);
only ever applied to nonempty runs. -/
def maxYOf : List Pt → ℚ
  | [] => 0
  | p :: ps => ps.foldl (fun m q => max m q.2) p.2

/-- The basis rebuilt for one surviving run (index.ts lines 774-780):
a copy of the original basis with minY and maxY recomputed from the run. -/
def segBasis (b : StrokeBasis) (seg : List Pt) : StrokeBasis :=
  { b with minY := minYOf seg, maxY := maxYOf seg }

/-- The loop over newSegments producing a new stroke per surviving run
(index.ts lines 770-786): runs shorter than 2 points are skipped, the
rest carry the original stroke fields with the run as point list. -/
def strokesOfSegments (stroke : Stroke) (segs : List (List Pt)) : List Stroke :=
  segs.filterMap (fun seg =>
    if seg.length < 2 then none
    else some { stroke with
                  points := seg
                  basis := stroke.basis.map (fun b => segBasis b seg) })

/-- The body of the for-loop over strokes in eraseWithPointer
(index.ts lines 694-787): the strokes this stroke contributes to
nextStrokes, and whether it counted as modified. -/
def eraseStroke (point : Pt) (previous : Option Pt) (stroke : Stroke) :
    List Stroke × Bool :=
  if stroke.points.isEmpty then ([stroke], false)
  else
    let radius := radiusForStroke stroke
    let radiusSq := radius * radius
    let acc := eraseFold point previous radiusSq stroke.points
    let newSegments := extractRuns acc
    if acc.strokeModified = false then ([stroke], false)
    else (strokesOfSegments stroke newSegments, true)

/-- eraseWithPointer (index.ts lines 679-793) on an already-read
collection: the rebuilt collection and the modified flag that guards
both the write-back and the forced redraw. -/
def eraseWithPointer (meta : OverlayMeta) (point : Pt) (previous : Option Pt) :
    OverlayMeta × Bool :=
  let folded := meta.strokes.foldl
    (fun acc stroke =>
      let r := eraseStroke point previous stroke
      (acc.1 ++ r.1, acc.2 || r.2))
    (([] : List Stroke), false)
  (⟨folded.1⟩, folded.2)

/-- The store-level effect of one erase event (index.ts lines 789-792):
the collection is rewritten only when the modified flag is set. -/
def applyErase (point : Pt) (previous : Option Pt) (stored : OverlayMeta) :
    OverlayMeta :=
  let r := eraseWithPointer stored point previous
  if r.2 then r.1 else stored

/- Spec-side formulation of the run grouping of section 4.3 of the spec:
maximal runs of consecutively kept points, additionally broken between
two consecutive kept points whose connecting segment passes within
radius of the swept eraser segment.  Stated as front-to-back recursion,
independent of the accumulator loop of the source. -/

/-- Modelled from the spec: the remainder of the run that a kept point a
opens: the following points are absorbed while they are kept and the
segment from the previous absorbed point does not cross the eraser path;
also returns the unconsumed suffix. -/
def takeRun (keep : Pt → Bool) (cross : Pt → Pt → Bool) :
    Pt → List Pt → List Pt × List Pt
  | _, [] => ([], [])
  | a, b :: rest =>
    if keep b && !cross a b then
      let x := takeRun keep cross b rest
      (b :: x.1, x.2)
    else ([], b :: rest)

/-- Modelled from the spec: the maximal runs of kept points, with the
extra mid-segment breaks, of a whole point list (spec section 4.3 steps
1-2); removed points separate runs and are dropped. -/
def runsSpec (keep : Pt → Bool) (cross : Pt → Pt → Bool) :
    List Pt → List (List Pt)
  | [] => []
  | a :: rest =>
    if keep a then
      (a :: (takeRun keep cross a rest).1) ::
        runsSpec keep cross (takeRun keep cross a rest).2
    else runsSpec keep cross rest
termination_by l => l.length
decreasing_by
  · have hlen : ∀ (a0 : Pt) (l : List Pt),
        ((takeRun keep cross a0 l).2).length ≤ l.length := by
      intro a0 l
      induction l generalizing a0 with
      | nil => simp [takeRun]
      | cons b0 rest0 ih =>
        rw [takeRun]
        by_cases hb : (keep b0 && !cross a0 b0) = true
        · simpa [hb] using Nat.le_succ_of_le (ih b0)
        · simp [hb]
    simp only [List.length_cons]
    exact Nat.lt_succ_of_le (hlen _ _)
  · simp only [List.length_cons]
    exact Nat.lt_succ_of_le (Nat.le_refl _)

/-- Helper for relating the splitting loop to runsSpec: the runs still to
be produced when the loop holds a partially-built run cur over the
remaining input pts. -/
def specFrom (keep : Pt → Bool) (cross : Pt → Pt → Bool)
    (cur : List Pt) (pts : List Pt) : List (List Pt) :=
  match cur.getLast? with
  | none => runsSpec keep cross pts
  | some a =>
    (cur ++ (takeRun keep cross a pts).1) ::
      runsSpec keep cross (takeRun keep cross a pts).2

/- Hypothesis predicates for the untouched-collection claims. -/

/-- Every point of the list survives the keepPoint test. -/
def keepAll (point : Pt) (previous : Option Pt) (radiusSq : ℚ) (pts : List Pt) : Prop :=
  ∀ pt ∈ pts, keepPoint point previous radiusSq pt = true

/-- No two consecutive points of the list trigger the mid-segment
crosses break. -/
def noRunBreak (point : Pt) (previous : Option Pt) (radiusSq : ℚ) (pts : List Pt) : Prop :=
  List.Chain' (fun a b => crossesSegment point previous radiusSq a b = false) pts

/-- One erase event touches no stroke of the collection: every point of
every stroke is kept and no mid-segment break fires. -/
def untouchedMeta (meta : OverlayMeta) (point : Pt) (previous : Option Pt) : Prop :=
  ∀ s ∈ meta.strokes,
    keepAll point previous (radiusForStroke s * radiusForStroke s) s.points ∧
    noRunBreak point previous (radiusForStroke s * radiusForStroke s) s.points

/- Renderer (drawStroke, index.ts lines 318-361). -/

/-- The JS falsy fallback x || 1 applied to canvas client sizes
(index.ts lines 319-320). -/
def orOne (x : ℚ) : ℚ := if x = 0 then 1 else x

/-- The environment drawStroke reads besides the stroke itself: the live
canvas client rectangle, the top of the content rectangle, and the
optional editor coordinate accessor (cell.editor and
getCoordinateForPosition, returning the absolute top coordinate of a
line, or none when the editor is absent or the lookup fails). -/
structure RenderEnv where
  clientWidth : ℚ
  clientHeight : ℚ
  contentTop : ℚ
  editorLineTop : Option (ℕ → Option ℚ)

/-- basisWidth (index.ts line 321): the basis width when present and
positive, else the live width. -/
def basisWidthOf (env : RenderEnv) (s : Stroke) : ℚ :=
  match s.basis with
  | some b => if 0 < b.width then b.width else orOne env.clientWidth
  | none => orOne env.clientWidth

/-- basisHeight (index.ts line 322): the basis height when present and
positive, else the live height. -/
def basisHeightOf (env : RenderEnv) (s : Stroke) : ℚ :=
  match s.basis with
  | some b => if 0 < b.height then b.height else orOne env.clientHeight
  | none => orOne env.clientHeight

/-- The deltaY anchor correction of drawStroke (index.ts lines 326-345):
nonzero only when the live height is at least the basis height, both
anchor fields are recorded, the editor accessor exists and resolves the
anchor line; then it is the difference between the current relative line
top and the recorded one. -/
def deltaYFor (env : RenderEnv) (s : Stroke) : ℚ :=
  let actualHeight := basisHeightOf env s
  match s.basis with
  | none => 0
  | some b =>
    match b.anchorLine, b.anchorLineTop, env.editorLineTop with
    | some line, some topNorm, some ed =>
      if actualHeight ≤ orOne env.clientHeight then
        match ed line with
        | some coordTop => (coordTop - env.contentTop) - topNorm * actualHeight
        | none => 0
      else 0
    | _, _, _ => 0

/-- The drawing parameters drawStroke feeds the 2D context: global
alpha, line width, stroke color and the pixel positions of the points. -/
structure RenderedStroke where
  alpha : ℚ
  lineWidth : ℚ
  color : String
  points : List Pt
deriving DecidableEq

/-- drawStroke (index.ts lines 318-361) as a pure function from the
environment and the stroke to the drawing parameters. -/
def drawStroke (env : RenderEnv) (s : Stroke) : RenderedStroke :=
  let actualWidth := basisWidthOf env s
  let actualHeight := basisHeightOf env s
  let deltaY := deltaYFor env s
  { alpha := if s.tool = ToolMode.highlighter then s.alpha.getD (3 / 10) else 1
    lineWidth := s.width * actualWidth
    color := s.color
    points := s.points.map (fun p => (p.1 * actualWidth, p.2 * actualHeight + deltaY)) }

/-- The stroke created on pointerdown in draw mode
(index.ts lines 922-935). -/
def newStroke (tool : ToolMode) (widthNorm : ℚ) (color : String)
    (firstPoint : Pt) (clientWidth clientHeight : ℚ) : Stroke :=
  { tool := tool
    width := widthNorm
    color := color
    alpha := some (if tool = ToolMode.highlighter then 3 / 10 else 1)
    points := [firstPoint]
    basis := some
      { width := orOne clientWidth
        height := orOne clientHeight
        minY := firstPoint.2
        maxY := firstPoint.2
        anchorLine := none
        anchorLineTop := none } }

/- Metadata synchronizer (index.ts lines 258-298, 1039-1053). -/

/-- What a metadata getter can hand back for the fixed key: nothing,
a non-object value, or an object (modelled as the overlay record). -/
inductive StoredValue where
  | absent
  | nonObject
  | obj (m : OverlayMeta)
deriving DecidableEq

/-- The two metadata accessors readMeta consults: the shared model
getter and the cell model getter; none means the accessor capability
itself is missing (index.ts lines 273-274, 280). -/
structure CellModelAccess where
  sharedGet : Option StoredValue
  modelGet : Option StoredValue
deriving DecidableEq

/-- The environment cloneOverlay runs in: whether structuredClone exists,
whether it succeeds, and whether the JSON round trip succeeds. -/
structure CloneEnv where
  structuredCloneAvailable : Bool
  structuredCloneOk : Bool
  jsonOk : Bool
deriving DecidableEq

/-- cloneOverlay (index.ts lines 258-271).  Each strategy produces a copy
that is value-equal to its input (structuredClone, the JSON round trip on
the JSON-shaped overlay data, or the input itself as last resort), so in
the value semantics of the embedding every branch returns the input. -/
def cloneOverlay (env : CloneEnv) {α : Type} (input : α) : α :=
  if env.structuredCloneAvailable && env.structuredCloneOk then input
  else if env.jsonOk then input
  else input

/-- readMeta (index.ts lines 272-287): the shared model getter is tried
first; a value that is present and an object is cloned and returned,
anything else falls through to the cell model getter, and finally to the
empty collection. -/
def readMeta (env : CloneEnv) (st : CellModelAccess) : OverlayMeta :=
  match st.sharedGet with
  | some (StoredValue.obj m) => cloneOverlay env m
  | _ =>
    match st.modelGet with
    | some (StoredValue.obj m) => cloneOverlay env m
    | _ => { strokes := [] }

/-- The shape of a metadata-change notification as onMetadataChanged
inspects it: either not an object, or an object with optional key and
name string fields. -/
inductive ChangeNotif where
  | nonObject
  | obj (key : Option String) (name : Option String)
deriving DecidableEq

/-- onMetadataChanged (index.ts lines 1039-1053) reduced to its redraw
decision: a falsy or non-object change redraws unconditionally; a change
with a key field redraws exactly when the key is the fixed key and the
name field is never consulted; otherwise a name field equal to the fixed
key redraws. -/
def onMetadataChanged : ChangeNotif → Bool
  | ChangeNotif.nonObject => true
  | ChangeNotif.obj (some k) _ => k == META_KEY
  | ChangeNotif.obj none (some n) => n == META_KEY
  | ChangeNotif.obj none none => false

/-- The handler together with its (absent) effect on the stored strokes:
the body of onMetadataChanged only ever requests a redraw, it never
writes metadata. -/
def onMetadataChangedAct (c : ChangeNotif) (st : CellModelAccess) :
    CellModelAccess × Bool :=
  (st, onMetadataChanged c)

/-- Modelled from the spec (claim C8 wording): a notification matches
when its key or name field equals the fixed key, and an unrecognized
(non-object) shape is conservatively treated as a match. -/
def c8ClaimMatch : ChangeNotif → Bool
  | ChangeNotif.nonObject => true
  | ChangeNotif.obj k n => (k == some META_KEY) || (n == some META_KEY)

/- Concrete inputs used by witnesses and counterexamples. -/

/-- A one-point pen stroke far away from the sample erase contact. -/
def c3s1 : Stroke :=
  ⟨ToolMode.pen, 3 / 1000, "#000000", none, [((0 : ℚ), (0 : ℚ))], none⟩

/-- A two-point pen stroke whose both points lie inside the eraser
radius of the sample contact (1/2, 1/2). -/
def c3s2 : Stroke :=
  ⟨ToolMode.pen, 3 / 1000, "#000000", none,
   [((1 / 2 : ℚ), (1 / 2 : ℚ)), ((1 / 2 : ℚ), (51 / 100 : ℚ))], none⟩

/-- A collection holding the far one-point stroke and the erased
two-point stroke. -/
def c3meta : OverlayMeta := ⟨[c3s1, c3s2]⟩

/-- A two-point pen stroke far away from the sample erase contact. -/
def c4stroke : Stroke :=
  ⟨ToolMode.pen, 3 / 1000, "#000000", none,
   [((0 : ℚ), (0 : ℚ)), ((0 : ℚ), (1 / 100 : ℚ))], none⟩

/-- A collection holding only the far two-point stroke. -/
def c4meta : OverlayMeta := ⟨[c4stroke]⟩

/-- A stroke with a basis, used to exercise the run-to-stroke copy. -/
def c5stroke : Stroke :=
  ⟨ToolMode.pen, 3 / 1000, "#123456", some 1,
   [((0 : ℚ), (0 : ℚ)), ((0 : ℚ), (1 : ℚ))],
   some ⟨100, 200, 0, 1, some 2, some (1 / 10)⟩⟩

/-- A single surviving run for the basis-copy witness. -/
def c5segs : List (List Pt) := [[((0 : ℚ), (1 / 4 : ℚ)), ((0 : ℚ), (3 / 4 : ℚ))]]

/-- The stroke the splitter produces for the run above. -/
def c5s2 : Stroke :=
  ⟨ToolMode.pen, 3 / 1000, "#123456", some 1,
   [((0 : ℚ), (1 / 4 : ℚ)), ((0 : ℚ), (3 / 4 : ℚ))],
   some ⟨100, 200, 1 / 4, 3 / 4, some 2, some (1 / 10)⟩⟩

/-- A content-geometry accessor reporting line 3 at absolute top 40. -/
def c6ed : ℕ → Option ℚ := fun l => if l = 3 then some 40 else none

/-- A live rectangle of height 120 with the accessor above. -/
def c6env : RenderEnv := ⟨200, 120, 0, some c6ed⟩

/-- A basis of height 100 anchored to line 3 at normalized top 0.2. -/
def c6basis : StrokeBasis := ⟨150, 100, 0, 1, some 3, some (1 / 5)⟩

/-- A stroke carrying the anchored basis above. -/
def c6stroke : Stroke :=
  ⟨ToolMode.pen, 3 / 1000, "#000000", some 1,
   [((1 / 10 : ℚ), (1 / 2 : ℚ))], some c6basis⟩

/-- A clone environment in which every strategy works. -/
def c7env : CloneEnv := ⟨true, true, true⟩

/-- Accessors whose shared value is malformed and whose model accessor
is missing. -/
def c7st : CellModelAccess := ⟨some StoredValue.nonObject, none⟩

/-- A render environment with no editor accessor. -/
def c9env : RenderEnv := ⟨100, 100, 0, none⟩

/-- A pen stroke that carries an explicit alpha of 1/2. -/
def c9stroke : Stroke :=
  ⟨ToolMode.pen, 3 / 1000, "#ff5722", some (1 / 2),
   [((0 : ℚ), (0 : ℚ)), ((1 / 10 : ℚ), (1 / 10 : ℚ))], none⟩

/-- A highlighter stroke that carries an explicit alpha of 9/10. -/
def c9hl : Stroke :=
  ⟨ToolMode.highlighter, 1 / 100, "#ffff00", some (9 / 10),
   [((0 : ℚ), (0 : ℚ)), ((1 / 10 : ℚ), (1 / 10 : ℚ))], none⟩

/-- A stroke with an empty point list. -/
def c10stroke : Stroke := ⟨ToolMode.pen, 3 / 1000, "#000000", none, [], none⟩

/- Helper lemmas shared by the claim theorems. -/

theorem foldl_erase_append (point : Pt) (previous : Option Pt) (l : List Stroke) :
    ∀ (a : List Stroke) (b : Bool),
      l.foldl (fun acc stroke =>
          let r := eraseStroke point previous stroke
          (acc.1 ++ r.1, acc.2 || r.2)) (a, b)
        = (a ++ (l.map (fun s => (eraseStroke point previous s).1)).flatten,
           b || l.any (fun s => (eraseStroke point previous s).2)) := by
  induction l with
  | nil => intro a b; simp
  | cons s rest ih =>
    intro a b
    rw [List.foldl_cons]
    show rest.foldl _
        (a ++ (eraseStroke point previous s).1, b || (eraseStroke point previous s).2) = _
    rw [ih]
    simp [List.append_assoc, Bool.or_assoc]

theorem eraseWithPointer_strokes (meta : OverlayMeta) (point : Pt) (previous : Option Pt) :
    (eraseWithPointer meta point previous).1.strokes
      = (meta.strokes.map (fun s => (eraseStroke point previous s).1)).flatten ∧
    (eraseWithPointer meta point previous).2
      = meta.strokes.any (fun s => (eraseStroke point previous s).2) := by
  unfold eraseWithPointer
  rw [foldl_erase_append]
  exact ⟨by simp, by simp⟩

theorem eraseStroke_mem (point : Pt) (previous : Option Pt) (s s2 : Stroke)
    (h : s2 ∈ (eraseStroke point previous s).1) :
    s2 = s ∨ 2 ≤ s2.points.length := by
  unfold eraseStroke at h
  by_cases he : s.points.isEmpty
  · simp [he] at h
    exact Or.inl h
  · simp only [he, if_false, Bool.false_eq_true] at h
    by_cases hm : (eraseFold point previous
        (radiusForStroke s * radiusForStroke s) s.points).strokeModified = false
    · rw [if_pos hm] at h
      simp at h
      exact Or.inl h
    · rw [if_neg hm] at h
      right
      unfold strokesOfSegments at h
      obtain ⟨seg, _, hseg⟩ := List.mem_filterMap.1 h
      by_cases hlen : seg.length < 2
      · simp [hlen] at hseg
      · rw [if_neg hlen] at hseg
        obtain rfl := Option.some.inj hseg
        simpa using Nat.le_of_not_lt hlen

theorem runsSpec_nil (keep : Pt → Bool) (cross : Pt → Pt → Bool) :
    runsSpec keep cross [] = [] := by
  rw [runsSpec]

theorem specFrom_nil (keep : Pt → Bool) (cross : Pt → Pt → Bool) (pts : List Pt) :
    specFrom keep cross [] pts = runsSpec keep cross pts := rfl

theorem specFrom_keep_nil (keep : Pt → Bool) (cross : Pt → Pt → Bool)
    (b : Pt) (rest : List Pt) (hb : keep b = true) :
    specFrom keep cross [] (b :: rest) = specFrom keep cross [b] rest := by
  rw [specFrom_nil, runsSpec]
  simp [hb, specFrom]

theorem specFrom_not_keep_nil (keep : Pt → Bool) (cross : Pt → Pt → Bool)
    (b : Pt) (rest : List Pt) (hb : keep b = false) :
    specFrom keep cross [] (b :: rest) = specFrom keep cross [] rest := by
  rw [specFrom_nil, specFrom_nil, runsSpec]
  simp [hb]

theorem specFrom_cons_not_keep (keep : Pt → Bool) (cross : Pt → Pt → Bool)
    (cur : List Pt) (a b : Pt) (rest : List Pt)
    (h : cur.getLast? = some a) (hb : keep b = false) :
    specFrom keep cross cur (b :: rest) = cur :: specFrom keep cross [] rest := by
  simp only [specFrom, h]
  rw [show takeRun keep cross a (b :: rest) = ([], b :: rest) from by
    rw [takeRun]; simp [hb]]
  rw [runsSpec]
  simp [hb]

theorem specFrom_cons_cross (keep : Pt → Bool) (cross : Pt → Pt → Bool)
    (cur : List Pt) (a b : Pt) (rest : List Pt)
    (h : cur.getLast? = some a) (hb : keep b = true) (hc : cross a b = true) :
    specFrom keep cross cur (b :: rest) = cur :: specFrom keep cross [b] rest := by
  simp only [specFrom, h]
  rw [show takeRun keep cross a (b :: rest) = ([], b :: rest) from by
    rw [takeRun]; simp [hb, hc]]
  rw [runsSpec]
  simp [hb]

theorem specFrom_cons_extend (keep : Pt → Bool) (cross : Pt → Pt → Bool)
    (cur : List Pt) (a b : Pt) (rest : List Pt)
    (h : cur.getLast? = some a) (hb : keep b = true) (hc : cross a b = false) :
    specFrom keep cross cur (b :: rest) = specFrom keep cross (cur ++ [b]) rest := by
  simp only [specFrom, h, List.getLast?_concat]
  rw [show takeRun keep cross a (b :: rest)
      = (b :: (takeRun keep cross b rest).1, (takeRun keep cross b rest).2) from by
    rw [takeRun]; simp [hb, hc]]
  simp

theorem extractRuns_foldl (point : Pt) (previous : Option Pt) (radiusSq : ℚ) :
    ∀ (pts : List Pt) (segs : List (List Pt)) (cur : List Pt) (m : Bool),
      extractRuns (pts.foldl (eraseStep point previous radiusSq) ⟨segs, cur, m⟩)
        = segs ++ (specFrom (keepPoint point previous radiusSq)
              (crossesSegment point previous radiusSq) cur pts).filter
            (fun r => decide (1 < r.length)) := by
  intro pts
  induction pts with
  | nil =>
    intro segs cur m
    rw [List.foldl_nil]
    cases cur with
    | nil => simp [extractRuns, pushRun, specFrom_nil, runsSpec_nil]
    | cons q qs =>
      have hne : (q :: qs : List Pt) ≠ [] := by simp
      have hlast := List.getLast?_eq_getLast (q :: qs) hne
      simp only [extractRuns, specFrom, hlast]
      rw [show takeRun (keepPoint point previous radiusSq)
          (crossesSegment point previous radiusSq) ((q :: qs).getLast hne) []
          = ([], []) from by rw [takeRun]]
      rw [runsSpec_nil]
      simp only [List.append_nil, List.filter_cons, List.filter_nil]
      by_cases hlen : 0 < qs.length <;> simp [pushRun, hlen]
  | cons b rest ih =>
    intro segs cur m
    rw [List.foldl_cons]
    by_cases hk : keepPoint point previous radiusSq b = true
    · cases cur with
      | nil =>
        rw [show eraseStep point previous radiusSq ⟨segs, [], m⟩ b = ⟨segs, [b], m⟩
          from by simp [eraseStep, hk]]
        rw [ih segs [b] m]
        rw [specFrom_keep_nil _ _ _ _ hk]
      | cons q qs =>
        have hne : (q :: qs : List Pt) ≠ [] := by simp
        have hlast := List.getLast?_eq_getLast (q :: qs) hne
        by_cases hc : crossesSegment point previous radiusSq ((q :: qs).getLast hne) b = true
        · rw [show eraseStep point previous radiusSq ⟨segs, q :: qs, m⟩ b
              = ⟨pushRun segs (q :: qs), [b], true⟩ from by simp [eraseStep, hk, hc]]
          rw [ih (pushRun segs (q :: qs)) [b] true]
          rw [specFrom_cons_cross _ _ _ _ _ _ hlast hk hc]
          rw [List.filter_cons]
          by_cases hlen : 0 < qs.length <;>
            simp [pushRun, hlen, List.append_assoc]
        · have hc2 : crossesSegment point previous radiusSq ((q :: qs).getLast hne) b
              = false := by simpa using hc
          rw [show eraseStep point previous radiusSq ⟨segs, q :: qs, m⟩ b
              = ⟨segs, (q :: qs) ++ [b], m⟩ from by simp [eraseStep, hk, hc2]]
          rw [ih segs ((q :: qs) ++ [b]) m]
          rw [specFrom_cons_extend _ _ _ _ _ _ hlast hk hc2]
    · have hk2 : keepPoint point previous radiusSq b = false := by simpa using hk
      rw [show eraseStep point previous radiusSq ⟨segs, cur, m⟩ b
          = ⟨pushRun segs cur, [], true⟩ from by simp [eraseStep, hk2]]
      rw [ih (pushRun segs cur) [] true]
      cases cur with
      | nil =>
        rw [specFrom_not_keep_nil _ _ _ _ hk2]
        simp [pushRun]
      | cons q qs =>
        have hne : (q :: qs : List Pt) ≠ [] := by simp
        have hlast := List.getLast?_eq_getLast (q :: qs) hne
        rw [specFrom_cons_not_keep _ _ _ _ _ _ hlast hk2]
        rw [List.filter_cons]
        by_cases hlen : 0 < qs.length <;>
          simp [pushRun, hlen, List.append_assoc]

/-- C1: a point of a stroke is removed by an erase event exactly when
its squared distance to the contact point, or (when a previous contact
exists) to the previous contact, or to the swept segment from previous
to contact, is at most the square of the per-stroke effective radius
max(BASE_RADIUS, strokeWidth * 6) with BASE_RADIUS = 0.015; otherwise it
is kept. -/
theorem c1_removal_rule (s : Stroke) (point pt : Pt) (previous : Option Pt) :
    radiusForStroke s = max (15 / 1000 : ℚ) (s.width * 6) ∧
    (keepPoint point previous (radiusForStroke s * radiusForStroke s) pt = false ↔
      (distanceSquared pt point ≤ radiusForStroke s * radiusForStroke s ∨
       (∃ prev, previous = some prev ∧
          distanceSquared pt prev ≤ radiusForStroke s * radiusForStroke s) ∨
       (∃ prev, previous = some prev ∧
          pointToSegmentDistanceSquared pt prev point
            ≤ radiusForStroke s * radiusForStroke s))) := by
  constructor
  · rfl
  · cases previous with
    | none =>
      simp only [keepPoint]
      by_cases h1 : distanceSquared pt point ≤ radiusForStroke s * radiusForStroke s <;>
        simp [h1]
    | some prev =>
      simp only [keepPoint]
      by_cases h1 : distanceSquared pt point ≤ radiusForStroke s * radiusForStroke s <;>
        by_cases h2 : distanceSquared pt prev ≤ radiusForStroke s * radiusForStroke s <;>
        by_cases h3 : pointToSegmentDistanceSquared pt prev point
            ≤ radiusForStroke s * radiusForStroke s <;>
        simp [h1, h2, h3]

/-- C7: readMeta never fails: whichever accessor first yields an object
value determines the result, which equals that stored value (each clone
strategy returns a value-equal copy, whatever the clone environment);
when no accessor yields an object value the empty collection is
returned. -/
theorem c7_read_total (env : CloneEnv) (st : CellModelAccess) :
    (∀ (m : OverlayMeta), cloneOverlay env m = m) ∧
    (∀ m, st.sharedGet = some (StoredValue.obj m) → readMeta env st = m) ∧
    ((∀ m, st.sharedGet ≠ some (StoredValue.obj m)) →
      ∀ m, st.modelGet = some (StoredValue.obj m) → readMeta env st = m) ∧
    ((∀ m, st.sharedGet ≠ some (StoredValue.obj m)) →
      (∀ m, st.modelGet ≠ some (StoredValue.obj m)) →
      readMeta env st = { strokes := [] }) := by
  have hclone : ∀ (m : OverlayMeta), cloneOverlay env m = m := by
    intro m
    unfold cloneOverlay
    by_cases h1 : (env.structuredCloneAvailable && env.structuredCloneOk) = true <;>
      by_cases h2 : env.jsonOk = true <;> simp [h1, h2]
  obtain ⟨sg, mg⟩ := st
  refine ⟨hclone, ?_, ?_, ?_⟩
  · intro m hm
    simp only at hm
    subst hm
    simpa [readMeta] using hclone m
  · intro hns m hm
    simp only at hm
    subst hm
    rcases sg with _ | v
    · simpa [readMeta] using hclone m
    · rcases v with _ | _ | m2
      · simpa [readMeta] using hclone m
      · simpa [readMeta] using hclone m
      · exact absurd rfl (hns m2)
  · intro hns hnm
    rcases sg with _ | v
    · rcases mg with _ | w
      · rfl
      · rcases w with _ | _ | m2
        · rfl
        · rfl
        · exact absurd rfl (hnm m2)
    · rcases v with _ | _ | m2
      · rcases mg with _ | w
        · rfl
        · rcases w with _ | _ | m3
          · rfl
          · rfl
          · exact absurd rfl (hnm m3)
      · rcases mg with _ | w
        · rfl
        · rcases w with _ | _ | m3
          · rfl
          · rfl
          · exact absurd rfl (hnm m3)
      · exact absurd rfl (hns m2)

/-- C7 witness: with a malformed shared value and a missing model
accessor, readMeta returns the empty collection. -/
theorem c7_read_total_witness : readMeta c7env c7st = { strokes := [] } :=
  (c7_read_total c7env c7st).2.2.2 (by simp [c7st]) (by simp [c7st])

/-- C8 counterexample: a notification object whose key field is another
key but whose name field is the fixed key does not trigger a redraw,
although it names the fixed key via its name field, which the claim
counts as a match. -/
theorem c8_counterexample :
    onMetadataChanged (ChangeNotif.obj (some "cell_type") (some META_KEY)) = false ∧
    c8ClaimMatch (ChangeNotif.obj (some "cell_type") (some META_KEY)) = true := by
  decide

/-- C8 amended: a re-render is triggered exactly when the notification
is not an object (conservatively treated as a match), or it has a key
field equal to the fixed key, or it has no key field and a name field
equal to the fixed key; when a key field is present the name field is
ignored, and an object with neither field does not trigger; the handler
never modifies the stored stroke data. -/
theorem c8_filter (c : ChangeNotif) (st : CellModelAccess) :
    (onMetadataChangedAct c st).1 = st ∧
    (onMetadataChanged c = true ↔
      (c = ChangeNotif.nonObject ∨
       (∃ n, c = ChangeNotif.obj (some META_KEY) n) ∨
       c = ChangeNotif.obj none (some META_KEY))) := by
  refine ⟨rfl, ?_⟩
  cases c with
  | nonObject => simp [onMetadataChanged]
  | obj k n =>
    cases k with
    | some k0 =>
      by_cases hk : k0 = META_KEY <;> simp [onMetadataChanged, hk]
    | none =>
      cases n with
      | some n0 =>
        by_cases hn : n0 = META_KEY <;> simp [onMetadataChanged, hn]
      | none => simp [onMetadataChanged]

/-- C9 counterexample: a pen stroke carrying an explicit alpha of 1/2
still renders with alpha 1, although the claim says a present alpha
value is the alpha used when rendering. -/
theorem c9_counterexample :
    (drawStroke c9env c9stroke).alpha = 1 ∧
    c9stroke.alpha = some (1 / 2) ∧ ((1 : ℚ) ≠ 1 / 2) := by
  refine ⟨rfl, rfl, by norm_num⟩

/-- C9 amended: the rendered alpha of a highlighter stroke is its stored
alpha when present and 0.3 when absent, while a pen stroke always
renders with alpha 1 regardless of its stored alpha; newly created
strokes are given alpha 1 for pen and 0.3 for highlighter. -/
theorem c9_alpha (env : RenderEnv) (s : Stroke) (tool : ToolMode) (widthNorm : ℚ)
    (color : String) (firstPoint : Pt) (W H : ℚ) :
    (s.tool = ToolMode.pen → (drawStroke env s).alpha = 1) ∧
    (s.tool = ToolMode.highlighter →
      ∀ a, s.alpha = some a → (drawStroke env s).alpha = a) ∧
    (s.tool = ToolMode.highlighter → s.alpha = none →
      (drawStroke env s).alpha = 3 / 10) ∧
    (newStroke tool widthNorm color firstPoint W H).alpha
      = some (if tool = ToolMode.highlighter then 3 / 10 else 1) := by
  refine ⟨?_, ?_, ?_, rfl⟩
  · intro hp
    simp [drawStroke, hp]
  · intro hh a ha
    simp [drawStroke, hh, ha]
  · intro hh ha
    simp [drawStroke, hh, ha]

/-- C9 amended witness: the concrete pen stroke with stored alpha 1/2
renders at alpha 1 and the concrete highlighter stroke with stored alpha
9/10 renders at alpha 9/10. -/
theorem c9_alpha_witness :
    (drawStroke c9env c9stroke).alpha = 1 ∧
    (drawStroke c9env c9hl).alpha = 9 / 10 := by
  constructor
  · exact (c9_alpha c9env c9stroke ToolMode.pen 1 "" ((0 : ℚ), (0 : ℚ)) 1 1).1 rfl
  · exact (c9_alpha c9env c9hl ToolMode.pen 1 "" ((0 : ℚ), (0 : ℚ)) 1 1).2.1 rfl
      (9 / 10) rfl

/-- C10: a stroke whose point list is empty is passed through an erase
event unchanged before any radius test, is not counted as modified, and
keeps its place in the rebuilt collection. -/
theorem c10_empty_points (point : Pt) (previous : Option Pt) (s : Stroke)
    (h : s.points = []) :
    eraseStroke point previous s = ([s], false) ∧
    ∀ meta : OverlayMeta, s ∈ meta.strokes →
      s ∈ (eraseWithPointer meta point previous).1.strokes := by
  constructor
  · unfold eraseStroke
    simp [h]
  · intro meta hm
    rw [(eraseWithPointer_strokes meta point previous).1]
    refine List.mem_flatten.2 ⟨(eraseStroke point previous s).1, ?_, ?_⟩
    · exact List.mem_map.2 ⟨s, hm, rfl⟩
    · unfold eraseStroke
      simp [h]

/-- C10 witness: the concrete empty stroke survives an erase at the
origin unchanged and stays in the collection. -/
theorem c10_empty_points_witness :
    eraseStroke ((0 : ℚ), (0 : ℚ)) none c10stroke = ([c10stroke], false) ∧
    c10stroke ∈ (eraseWithPointer ⟨[c10stroke]⟩ ((0 : ℚ), (0 : ℚ)) none).1.strokes := by
  have h := c10_empty_points ((0 : ℚ), (0 : ℚ)) none c10stroke rfl
  exact ⟨h.1, h.2 ⟨[c10stroke]⟩ (by simp)⟩

/-- C2: for an erase event with a previous contact point, the runs the
splitter produces are exactly the maximal runs of consecutively kept
points, additionally broken between two consecutive kept points whose
connecting segment passes within the effective radius of the swept
eraser segment, restricted to runs of at least two points (shorter runs
are discarded by the splitter as it flushes them); and the
segment-to-segment distance used for the break test is the minimum of
the four endpoint-to-segment distances. -/
theorem c2_run_grouping (s : Stroke) (point prev : Pt) (a1 a2 b1 b2 : Pt) :
    segmentDistanceSquared a1 a2 b1 b2
      = min (min (min (pointToSegmentDistanceSquared a1 b1 b2)
                      (pointToSegmentDistanceSquared a2 b1 b2))
                 (pointToSegmentDistanceSquared b1 a1 a2))
            (pointToSegmentDistanceSquared b2 a1 a2) ∧
    eraseSegments point (some prev) (radiusForStroke s * radiusForStroke s) s.points
      = (runsSpec
          (keepPoint point (some prev) (radiusForStroke s * radiusForStroke s))
          (fun a b => decide (segmentDistanceSquared a b prev point
              ≤ radiusForStroke s * radiusForStroke s)) s.points).filter
          (fun r => decide (1 < r.length)) := by
  refine ⟨rfl, ?_⟩
  have h := extractRuns_foldl point (some prev)
    (radiusForStroke s * radiusForStroke s) s.points [] [] false
  unfold eraseSegments eraseFold
  rw [h, specFrom_nil, List.nil_append]
  rfl

theorem foldl_eraseStep_untouched (point : Pt) (previous : Option Pt) (radiusSq : ℚ) :
    ∀ (pts cur : List Pt) (segs : List (List Pt)) (m : Bool),
      (∀ pt ∈ pts, keepPoint point previous radiusSq pt = true) →
      List.Chain' (fun a b => crossesSegment point previous radiusSq a b = false)
        (cur ++ pts) →
      pts.foldl (eraseStep point previous radiusSq) ⟨segs, cur, m⟩
        = ⟨segs, cur ++ pts, m⟩ := by
  intro pts
  induction pts with
  | nil => intro cur segs m _ _; simp
  | cons b rest ih =>
    intro cur segs m hkeep hchain
    have hkb : keepPoint point previous radiusSq b = true := hkeep b (by simp)
    rw [List.foldl_cons]
    cases cur with
    | nil =>
      rw [show eraseStep point previous radiusSq ⟨segs, [], m⟩ b = ⟨segs, [b], m⟩
        from by simp [eraseStep, hkb]]
      have hr := ih [b] segs m (fun pt hpt => hkeep pt (by simp [hpt]))
        (by simpa using hchain)
      rw [hr]
      simp
    | cons q qs =>
      have hne : (q :: qs : List Pt) ≠ [] := by simp
      have hc : crossesSegment point previous radiusSq ((q :: qs).getLast hne) b
          = false := by
        have h3 := (List.chain'_append.1 hchain).2.2
        exact h3 _ (List.getLast?_eq_getLast _ hne) b rfl
      rw [show eraseStep point previous radiusSq ⟨segs, q :: qs, m⟩ b
          = ⟨segs, (q :: qs) ++ [b], m⟩ from by simp [eraseStep, hkb, hc]]
      have hr := ih ((q :: qs) ++ [b]) segs m
        (fun pt hpt => hkeep pt (by simp [hpt]))
        (by simpa [List.append_assoc] using hchain)
      rw [hr]
      simp

theorem eraseStroke_untouched (point : Pt) (previous : Option Pt) (s : Stroke)
    (hk : keepAll point previous (radiusForStroke s * radiusForStroke s) s.points)
    (hc : noRunBreak point previous (radiusForStroke s * radiusForStroke s) s.points) :
    eraseStroke point previous s = ([s], false) := by
  unfold eraseStroke
  by_cases he : s.points.isEmpty
  · simp [he]
  · have h := foldl_eraseStep_untouched point previous
      (radiusForStroke s * radiusForStroke s) s.points [] [] false hk
      (by simpa using hc)
    simp only [he, Bool.false_eq_true, if_false, eraseFold]
    rw [h]
    simp

theorem overlayMeta_eq (a b : OverlayMeta) (h : a.strokes = b.strokes) : a = b := by
  cases a; cases b; simpa using h

theorem flatten_map_singleton {α : Type} (f : α → List α × Bool) :
    ∀ (l : List α), (∀ s ∈ l, f s = ([s], false)) →
      (l.map (fun s => (f s).1)).flatten = l ∧ l.any (fun s => (f s).2) = false := by
  intro l
  induction l with
  | nil => intro _; simp
  | cons s rest ih =>
    intro hl
    have hs := hl s (by simp)
    have hrest := ih (fun x hx => hl x (by simp [hx]))
    simp [hs, hrest.1, hrest.2]

/-- C4: an erase event in which every point of every stroke is kept and
no mid-segment break fires passes every stroke through unmodified,
reports the collection as unmodified (so it is neither written back nor
re-rendered), and therefore any number of repetitions of the event
leaves the stored collection unchanged. -/
theorem c4_untouched_noop (meta : OverlayMeta) (point : Pt) (previous : Option Pt)
    (h : untouchedMeta meta point previous) :
    eraseWithPointer meta point previous = (meta, false) ∧
    ∀ n : ℕ, (fun m2 => applyErase point previous m2)^[n] meta = meta := by
  have h1 : ∀ s ∈ meta.strokes, eraseStroke point previous s = ([s], false) :=
    fun s hs => eraseStroke_untouched point previous s (h s hs).1 (h s hs).2
  have h2 := eraseWithPointer_strokes meta point previous
  obtain ⟨hfl, hany⟩ :=
    flatten_map_singleton (fun s => eraseStroke point previous s) meta.strokes h1
  have heq : eraseWithPointer meta point previous = (meta, false) := by
    have e1 : (eraseWithPointer meta point previous).1 = meta :=
      overlayMeta_eq _ _ (by rw [h2.1, hfl])
    have e2 : (eraseWithPointer meta point previous).2 = false := by rw [h2.2, hany]
    calc eraseWithPointer meta point previous
        = ((eraseWithPointer meta point previous).1,
           (eraseWithPointer meta point previous).2) := rfl
      _ = (meta, false) := by rw [e1, e2]
  refine ⟨heq, ?_⟩
  intro n
  induction n with
  | zero => rfl
  | succ k ihk =>
    rw [Function.iterate_succ_apply]
    have hstep : applyErase point previous meta = meta := by
      unfold applyErase
      rw [heq]
      simp
    rw [hstep, ihk]

theorem chainTwo {α : Type} (R : α → α → Prop) (a b : α) (h : R a b) :
    List.Chain' R [a, b] := List.Chain'.cons h (List.chain'_singleton b)

/-- C4 witness: erasing at (1/2, 1/2) misses the concrete far stroke, so
the collection passes through unmodified and three repetitions leave it
unchanged. -/
theorem c4_untouched_noop_witness :
    eraseWithPointer c4meta ((1 / 2 : ℚ), (1 / 2 : ℚ)) none = (c4meta, false) ∧
    (fun m2 => applyErase ((1 / 2 : ℚ), (1 / 2 : ℚ)) none m2)^[3] c4meta = c4meta := by
  have h := c4_untouched_noop c4meta ((1 / 2 : ℚ), (1 / 2 : ℚ)) none (by
    unfold untouchedMeta keepAll noRunBreak c4meta c4stroke
    intro s hs
    simp only [List.mem_singleton] at hs
    subst hs
    constructor
    · intro pt hpt
      simp only [List.mem_cons, List.not_mem_nil, or_false] at hpt
      rcases hpt with rfl | rfl <;>
        norm_num [keepPoint, distanceSquared, radiusForStroke, BASE_ERASER_RADIUS,
          max_def]
    · exact chainTwo _ _ _ rfl)
  exact ⟨h.1, h.2 3⟩

/-- C3 counterexample: the claim says every surviving stroke the eraser
writes back has at least two points, but when the erase at (1/2, 1/2)
removes the two-point stroke, the write-back happens (modified is true)
and the untouched one-point stroke is written back with a single
point. -/
theorem c3_erase_eval :
    eraseWithPointer c3meta ((1 / 2 : ℚ), (1 / 2 : ℚ)) none = (⟨[c3s1]⟩, true) := by
  norm_num [eraseWithPointer, eraseStroke, eraseFold, eraseStep, keepPoint,
    crossesSegment, distanceSquared, radiusForStroke, BASE_ERASER_RADIUS,
    extractRuns, pushRun, strokesOfSegments, c3meta, c3s1, c3s2, max_def]
  simp

theorem c3_counterexample :
    (eraseWithPointer c3meta ((1 / 2 : ℚ), (1 / 2 : ℚ)) none).2 = true ∧
    c3s1 ∈ (eraseWithPointer c3meta ((1 / 2 : ℚ), (1 / 2 : ℚ)) none).1.strokes ∧
    c3s1.points.length < 2 := by
  rw [c3_erase_eval]
  refine ⟨rfl, by simp, by simp [c3s1]⟩

/-- C3 amended: every stroke in the rebuilt collection either is one of
the original strokes passed through unchanged (which may have fewer than
two points) or is a run-derived stroke with at least two points, since
each run of kept points with fewer than two points is discarded; and
erasing a two-point stroke at a contact within the effective radius of
either of its points yields zero surviving strokes for that stroke. -/
theorem c3_min_length (point : Pt) (previous : Option Pt) :
    (∀ (meta : OverlayMeta) (s2 : Stroke),
        s2 ∈ (eraseWithPointer meta point previous).1.strokes →
        s2 ∈ meta.strokes ∨ 2 ≤ s2.points.length) ∧
    (∀ (s : Stroke) (p1 p2 : Pt),
        s.points = [p1, p2] →
        (keepPoint point previous (radiusForStroke s * radiusForStroke s) p1 = false ∨
         keepPoint point previous (radiusForStroke s * radiusForStroke s) p2 = false) →
        eraseStroke point previous s = ([], true)) := by
  constructor
  · intro meta s2 hmem
    rw [(eraseWithPointer_strokes meta point previous).1] at hmem
    obtain ⟨l, hl, hs2⟩ := List.mem_flatten.1 hmem
    obtain ⟨s, hs, rfl⟩ := List.mem_map.1 hl
    rcases eraseStroke_mem point previous s s2 hs2 with rfl | hlen
    · exact Or.inl hs
    · exact Or.inr hlen
  · intro s p1 p2 hpts hrem
    unfold eraseStroke
    rw [hpts]
    simp only [List.isEmpty_cons, Bool.false_eq_true, if_false]
    unfold eraseFold
    rcases hrem with h | h <;>
      cases hk1 : keepPoint point previous (radiusForStroke s * radiusForStroke s) p1 <;>
      cases hk2 : keepPoint point previous (radiusForStroke s * radiusForStroke s) p2 <;>
      simp_all [eraseStep, extractRuns, pushRun, strokesOfSegments]

/-- C3 amended witness: the far one-point stroke is accounted for as an
original member of the collection, and the concrete two-point stroke
erased at (1/2, 1/2) leaves zero surviving strokes. -/
theorem c3_min_length_witness :
    (c3s1 ∈ c3meta.strokes ∨ 2 ≤ c3s1.points.length) ∧
    eraseStroke ((1 / 2 : ℚ), (1 / 2 : ℚ)) none c3s2 = ([], true) := by
  constructor
  · exact (c3_min_length ((1 / 2 : ℚ), (1 / 2 : ℚ)) none).1 c3meta c3s1
      (by rw [c3_erase_eval]; simp)
  · exact (c3_min_length ((1 / 2 : ℚ), (1 / 2 : ℚ)) none).2 c3s2
      ((1 / 2 : ℚ), (1 / 2 : ℚ)) ((1 / 2 : ℚ), (51 / 100 : ℚ)) rfl
      (Or.inl (by norm_num [keepPoint, distanceSquared, radiusForStroke,
        BASE_ERASER_RADIUS, c3s2, max_def]))

theorem foldl_min_le (l : List Pt) :
    ∀ (init : ℚ),
      (l.foldl (fun m q => min m q.2) init ≤ init) ∧
      (∀ q ∈ l, l.foldl (fun m q => min m q.2) init ≤ q.2) ∧
      (l.foldl (fun m q => min m q.2) init = init ∨
        ∃ q ∈ l, l.foldl (fun m q => min m q.2) init = q.2) := by
  induction l with
  | nil => intro init; exact ⟨le_refl _, by simp, Or.inl rfl⟩
  | cons p rest ih =>
    intro init
    simp only [List.foldl_cons]
    obtain ⟨h1, h2, h3⟩ := ih (min init p.2)
    refine ⟨le_trans h1 (min_le_left _ _), ?_, ?_⟩
    · intro q hq
      rcases List.mem_cons.1 hq with rfl | hq2
      · exact le_trans h1 (min_le_right _ _)
      · exact h2 q hq2
    · rcases h3 with h | ⟨q, hq, h⟩
      · rcases min_choice init p.2 with hm | hm
        · exact Or.inl (h.trans hm)
        · exact Or.inr ⟨p, by simp, h.trans hm⟩
      · exact Or.inr ⟨q, by simp [hq], h⟩

theorem foldl_max_ge (l : List Pt) :
    ∀ (init : ℚ),
      (init ≤ l.foldl (fun m q => max m q.2) init) ∧
      (∀ q ∈ l, q.2 ≤ l.foldl (fun m q => max m q.2) init) ∧
      (l.foldl (fun m q => max m q.2) init = init ∨
        ∃ q ∈ l, l.foldl (fun m q => max m q.2) init = q.2) := by
  induction l with
  | nil => intro init; exact ⟨le_refl _, by simp, Or.inl rfl⟩
  | cons p rest ih =>
    intro init
    simp only [List.foldl_cons]
    obtain ⟨h1, h2, h3⟩ := ih (max init p.2)
    refine ⟨le_trans (le_max_left _ _) h1, ?_, ?_⟩
    · intro q hq
      rcases List.mem_cons.1 hq with rfl | hq2
      · exact le_trans (le_max_right _ _) h1
      · exact h2 q hq2
    · rcases h3 with h | ⟨q, hq, h⟩
      · rcases max_choice init p.2 with hm | hm
        · exact Or.inl (h.trans hm)
        · exact Or.inr ⟨p, by simp, h.trans hm⟩
      · exact Or.inr ⟨q, by simp [hq], h⟩

/-- C5: the rebuilt collection concatenates, in original order, each
stroke's surviving strokes in place of that stroke; every stroke a run
produces carries the original tool, width, color and alpha, has the run
as its point list, and has no basis when the original had none and
otherwise a copy of the original basis whose minY and maxY are the
minimum and maximum y coordinate over the run's own points while width,
height, anchorLine and anchorLineTop are unchanged. -/
theorem c5_run_strokes :
    (∀ (meta : OverlayMeta) (point : Pt) (previous : Option Pt),
        (eraseWithPointer meta point previous).1.strokes
          = (meta.strokes.map (fun s => (eraseStroke point previous s).1)).flatten) ∧
    (∀ (stroke : Stroke) (segs : List (List Pt)) (s2 : Stroke),
        s2 ∈ strokesOfSegments stroke segs →
        ∃ seg, seg ∈ segs ∧ 2 ≤ seg.length ∧
          s2.tool = stroke.tool ∧ s2.width = stroke.width ∧
          s2.color = stroke.color ∧ s2.alpha = stroke.alpha ∧
          s2.points = seg ∧
          ((stroke.basis = none ∧ s2.basis = none) ∨
           (∃ b, stroke.basis = some b ∧
              s2.basis = some { width := b.width, height := b.height,
                                minY := minYOf seg, maxY := maxYOf seg,
                                anchorLine := b.anchorLine,
                                anchorLineTop := b.anchorLineTop }))) ∧
    (∀ (p : Pt) (l : List Pt),
        (∀ q ∈ p :: l, minYOf (p :: l) ≤ q.2 ∧ q.2 ≤ maxYOf (p :: l)) ∧
        (∃ q ∈ p :: l, minYOf (p :: l) = q.2) ∧
        (∃ q ∈ p :: l, maxYOf (p :: l) = q.2)) := by
  refine ⟨fun meta point previous => (eraseWithPointer_strokes meta point previous).1,
    ?_, ?_⟩
  · intro stroke segs s2 h
    unfold strokesOfSegments at h
    obtain ⟨seg, hseg, hmap⟩ := List.mem_filterMap.1 h
    by_cases hlen : seg.length < 2
    · simp [hlen] at hmap
    · rw [if_neg hlen] at hmap
      obtain rfl := (Option.some.inj hmap).symm
      refine ⟨seg, hseg, Nat.le_of_not_lt hlen, rfl, rfl, rfl, rfl, rfl, ?_⟩
      cases hb : stroke.basis with
      | none => exact Or.inl ⟨rfl, by simp [hb]⟩
      | some b => exact Or.inr ⟨b, rfl, by simp [hb, segBasis]⟩
  · intro p l
    obtain ⟨hm1, hm2, hm3⟩ := foldl_min_le l p.2
    obtain ⟨hx1, hx2, hx3⟩ := foldl_max_ge l p.2
    have hmin : minYOf (p :: l) = l.foldl (fun m q => min m q.2) p.2 := rfl
    have hmax : maxYOf (p :: l) = l.foldl (fun m q => max m q.2) p.2 := rfl
    refine ⟨?_, ?_, ?_⟩
    · intro q hq
      rcases List.mem_cons.1 hq with rfl | hq2
      · exact ⟨by rw [hmin]; exact hm1, by rw [hmax]; exact hx1⟩
      · exact ⟨by rw [hmin]; exact hm2 q hq2, by rw [hmax]; exact hx2 q hq2⟩
    · rw [hmin]
      rcases hm3 with h | ⟨q, hq, h⟩
      · exact ⟨p, by simp, h⟩
      · exact ⟨q, by simp [hq], h⟩
    · rw [hmax]
      rcases hx3 with h | ⟨q, hq, h⟩
      · exact ⟨p, by simp, h⟩
      · exact ⟨q, by simp [hq], h⟩

/-- C5 witness: the concrete run yields exactly the expected stroke with
recomputed minY and maxY, and the min and max bounds hold on the run's
own points. -/
theorem c5_run_strokes_witness :
    (∃ seg, seg ∈ c5segs ∧ 2 ≤ seg.length ∧ c5s2.tool = c5stroke.tool ∧
      c5s2.width = c5stroke.width ∧ c5s2.color = c5stroke.color ∧
      c5s2.alpha = c5stroke.alpha ∧ c5s2.points = seg ∧
      ((c5stroke.basis = none ∧ c5s2.basis = none) ∨
       (∃ b, c5stroke.basis = some b ∧
          c5s2.basis = some { width := b.width, height := b.height,
                              minY := minYOf seg, maxY := maxYOf seg,
                              anchorLine := b.anchorLine,
                              anchorLineTop := b.anchorLineTop }))) ∧
    (∀ q ∈ [((0 : ℚ), (1 / 4 : ℚ)), ((0 : ℚ), (3 / 4 : ℚ))],
        minYOf [((0 : ℚ), (1 / 4 : ℚ)), ((0 : ℚ), (3 / 4 : ℚ))] ≤ q.2 ∧
        q.2 ≤ maxYOf [((0 : ℚ), (1 / 4 : ℚ)), ((0 : ℚ), (3 / 4 : ℚ))]) := by
  have hm : c5s2 ∈ strokesOfSegments c5stroke c5segs := by
    norm_num [strokesOfSegments, c5stroke, c5segs, c5s2, segBasis,
      minYOf, maxYOf, min_def, max_def]
  exact ⟨c5_run_strokes.2.1 c5stroke c5segs c5s2 hm,
    (c5_run_strokes.2.2 ((0 : ℚ), (1 / 4 : ℚ)) [((0 : ℚ), (3 / 4 : ℚ))]).1⟩

/-- C6: for a stroke with a positive-size basis carrying an anchor line
and recorded top, rendered while the editor accessor exists: when the
live height is at least the basis height and the accessor resolves the
anchor line at current relative top currentTop, deltaY is
currentTop minus anchorLineTop times basisHeight; when the live
rectangle is shorter or the lookup fails, deltaY is zero; and each point
(nx, ny) renders at pixel (nx * basisWidth, ny * basisHeight + deltaY)
with line width stroke.width * basisWidth. -/
theorem c6_anchor_render (env : RenderEnv) (s : Stroke) (b : StrokeBasis)
    (line : ℕ) (topNorm : ℚ) (ed : ℕ → Option ℚ)
    (hb : s.basis = some b) (hw : 0 < b.width) (hh : 0 < b.height)
    (hl : b.anchorLine = some line) (ht : b.anchorLineTop = some topNorm)
    (he : env.editorLineTop = some ed) :
    (∀ coordTop, b.height ≤ orOne env.clientHeight → ed line = some coordTop →
        deltaYFor env s = (coordTop - env.contentTop) - topNorm * b.height) ∧
    (orOne env.clientHeight < b.height → deltaYFor env s = 0) ∧
    (ed line = none → deltaYFor env s = 0) ∧
    (drawStroke env s).points
      = s.points.map (fun p => (p.1 * b.width, p.2 * b.height + deltaYFor env s)) ∧
    (drawStroke env s).lineWidth = s.width * b.width := by
  have hbw : basisWidthOf env s = b.width := by
    simp [basisWidthOf, hb, hw]
  have hbh : basisHeightOf env s = b.height := by
    simp [basisHeightOf, hb, hh]
  refine ⟨?_, ?_, ?_, ?_, ?_⟩
  · intro coordTop hle hres
    unfold deltaYFor
    rw [hbh, hb]
    simp only [hl, ht, he, hres]
    rw [if_pos hle]
  · intro hlt
    unfold deltaYFor
    rw [hbh, hb]
    simp only [hl, ht, he]
    rw [if_neg (not_le.2 hlt)]
  · intro hres
    unfold deltaYFor
    rw [hbh, hb]
    simp only [hl, ht, he, hres]
    by_cases hle : b.height ≤ orOne env.clientHeight
    · rw [if_pos hle]
    · rw [if_neg hle]
  · unfold drawStroke
    rw [hbw, hbh]
  · unfold drawStroke
    rw [hbw]

/-- C6 witness: with anchorLineTop 0.2 recorded against basis height 100
and the accessor reporting the anchor line at current top 40 inside a
live rectangle of height 120, the computed deltaY is 20, and the single
point (1/10, 1/2) renders at pixel (15, 70). -/
theorem c6_anchor_render_witness :
    deltaYFor c6env c6stroke = 20 ∧
    (drawStroke c6env c6stroke).points = [((15 : ℚ), (70 : ℚ))] ∧
    (drawStroke c6env c6stroke).lineWidth = (3 / 1000 : ℚ) * 150 := by
  have h := c6_anchor_render c6env c6stroke c6basis 3 (1 / 5) c6ed rfl
    (by norm_num [c6basis]) (by norm_num [c6basis]) rfl rfl rfl
  have hd : deltaYFor c6env c6stroke = 20 := by
    have h1 := h.1 40 (by norm_num [orOne, c6env, c6basis]) (by norm_num [c6ed])
    rw [h1]
    norm_num [c6env, c6basis]
  refine ⟨hd, ?_, ?_⟩
  · rw [h.2.2.2.1, hd]
    norm_num [c6stroke, c6basis]
  · rw [h.2.2.2.2]
    norm_num [c6stroke, c6basis]

end Overlay
